import Mathlib

/-!
A shallow embedding of the `poset` Rust crate and proofs about its behaviour.

The embedding translates the source files directly:
* `src/traits.rs`   — the `PartialOrderBehaviour` derived predicates (`le`, `gt`,
  `lt`, `eq`, `ip`, `cp`, `pc`).
* `src/errors.rs`   — `PosetError`.
* `src/poset.rs`    — `maxima`, `minima`, `cover`, `cover_in_pool`,
  `minima_in_pool`, `chain_from_pool`, `chain_decomposition`.
* `src/antichain_iterator.rs` — `AntichainIterator` (state, `advance_indices`,
  `is_incomparable`, `next`).

A poset is modelled as an element list `elements : List α` together with a
relation `r : α → α → Bool` (the user-supplied `ge` closure).  Loops in the
source that are not structurally recursive (the chain-extension loop of
`chain_from_pool`, the `while` loop inside `AntichainIterator::next`) are
modelled with an explicit fuel parameter; running out of fuel is a distinct
result constructor, so "the Rust loop terminates" is expressed as "some fuel
yields a result other than fuel exhaustion".  The Rust expression `elem[0]`
on a possibly-empty vector is modelled by a distinct `panicked` constructor.
-/

set_option linter.unusedSectionVars false

namespace PosetModel

variable {α : Type} [DecidableEq α]

/-! ## Relation predicates, from `src/traits.rs` (`PartialOrderBehaviour`) -/

/-- `le(a,b)` from `traits.rs`: `self.ge(b, a)`. -/
def le (r : α → α → Bool) (a b : α) : Bool := r b a

/-- `gt(a,b)` from `traits.rs`: `self.ge(a, b) && !self.ge(b, a)`. -/
def gt (r : α → α → Bool) (a b : α) : Bool := r a b && !(r b a)

/-- `lt(a,b)` from `traits.rs`: `self.ge(b, a) && !self.ge(a, b)`. -/
def lt (r : α → α → Bool) (a b : α) : Bool := r b a && !(r a b)

/-- `eq(a,b)` from `traits.rs`: `self.ge(a, b) && self.ge(b, a)`. -/
def eq (r : α → α → Bool) (a b : α) : Bool := r a b && r b a

/-- `ip(a,b)` from `traits.rs`: `!self.ge(a, b) && !self.ge(b, a)`. -/
def ip (r : α → α → Bool) (a b : α) : Bool := !(r a b) && !(r b a)

/-- `cp(a,b)` from `traits.rs`: `self.ge(a, b) || self.ge(b, a)`. -/
def cp (r : α → α → Bool) (a b : α) : Bool := r a b || r b a

/-- `pc(a,b)` from `traits.rs`: match on `(ge(a,b), ge(b,a))`;
`(true,true) ↦ Equal`, `(true,_) ↦ Greater`, `(_,true) ↦ Less`, `_ ↦ None`. -/
def pc (r : α → α → Bool) (a b : α) : Option Ordering :=
  match r a b, r b a with
  | true, true => some Ordering.eq
  | true, false => some Ordering.gt
  | false, true => some Ordering.lt
  | false, false => none

/-! ## Errors, from `src/errors.rs` -/

/-- `PosetError` from `errors.rs`. -/
inductive PosetError where
  | NoMaxima
  | NoMinima
deriving DecidableEq

/-! ## Poset queries, from `src/poset.rs` -/

/-- `Poset::maxima` from `poset.rs`: empty poset returns `Ok(vec![])`;
otherwise keep every `v` with no `w` in the poset such that `gt(w, v)`;
an empty candidate set is the error `NoMaxima`. -/
def maxima (r : α → α → Bool) (elements : List α) : Except PosetError (List α) :=
  if elements.isEmpty then .ok []
  else
    let mx := elements.filter (fun v => !(elements.any (fun w => gt r w v)))
    if mx.isEmpty then .error .NoMaxima else .ok mx

/-- `Poset::minima` from `poset.rs`: symmetric to `maxima` using `lt` and
`NoMinima`. -/
def minima (r : α → α → Bool) (elements : List α) : Except PosetError (List α) :=
  if elements.isEmpty then .ok []
  else
    let mn := elements.filter (fun v => !(elements.any (fun w => lt r w v)))
    if mn.isEmpty then .error .NoMinima else .ok mn

/-- `Poset::cover` from `poset.rs`: `gt(y,x)` and no `z` in the whole element
list with `lt(x,z) && lt(z,y)`. -/
def cover (r : α → α → Bool) (elements : List α) (x y : α) : Bool :=
  if !(gt r y x) then false
  else !(elements.any (fun z => lt r x z && lt r z y))

/-- `Poset::cover_in_pool` from `poset.rs`: as `cover` but the intermediate
search runs over the given pool. -/
def cover_in_pool (r : α → α → Bool) (x y : α) (pool : List α) : Bool :=
  if !(gt r y x) then false
  else !(pool.any (fun z => lt r x z && lt r z y))

/-- `Poset::minima_in_pool` from `poset.rs`: always `Some` of the pool
elements `v` with no `w` in the pool such that `lt(w, v)`. -/
def minima_in_pool (r : α → α → Bool) (pool : List α) : Option (List α) :=
  some (pool.filter (fun v => !(pool.any (fun w => lt r w v))))

/-! ## Chain decomposition, from `src/poset.rs` -/

/-- Result of `Poset::chain_from_pool`.  `ok chain pool` is the Rust
`Ok(chain)` together with the pool after `pool.retain(|x| !chain.contains(x))`;
`structuralError` is the `ok_or("there should be a minimal element")` error
branch; `panicked` is the out-of-bounds index `elem[0]` on an empty minima
vector; `fuelOut` marks exhaustion of the fuel bounding the chain-extension
loop (the Rust loop has no such bound and simply does not terminate). -/
inductive ChainResult (α : Type) where
  | ok (chain : List α) (pool : List α)
  | structuralError
  | panicked
  | fuelOut
deriving DecidableEq

/-- The chain-extension loop of `chain_from_pool` (`'outer: loop { for x in
&other { if self.cover_in_pool(latest, x, other.clone()) { chain.push(x);
latest = x; continue 'outer; } } break; }`), with fuel. -/
def extendChain (r : α → α → Bool) (other : List α) :
    Nat → α → List α → Option (List α)
  | 0, _, _ => none
  | n + 1, latest, chain =>
    match other.find? (fun x => cover_in_pool r latest x other) with
    | some x => extendChain r other n x (chain ++ [x])
    | none => some chain

/-- `Poset::chain_from_pool` from `poset.rs`.  An empty pool returns an empty
chain; otherwise the first element of `minima_in_pool` starts the chain
(`elem[0]`, a panic when the minima vector is empty), the chain-extension
loop appends covering successors, and the chain's elements are retained out
of the pool. -/
def chain_from_pool (r : α → α → Bool) (fuel : Nat) (pool : List α) :
    ChainResult α :=
  if pool.isEmpty then .ok [] pool
  else
    match minima_in_pool r pool with
    | none => .structuralError
    | some elem =>
      match elem with
      | [] => .panicked
      | e :: _ =>
        match extendChain r pool fuel e [e] with
        | none => .fuelOut
        | some chain => .ok chain (pool.filter (fun x => !(chain.contains x)))

/-- Result of `Poset::chain_decomposition`, with the same non-`Ok`
constructors as `ChainResult`. -/
inductive DecompResult (α : Type) where
  | ok (chains : List (List α))
  | structuralError
  | panicked
  | fuelOut
deriving DecidableEq

/-- The `while !vertices.is_empty()` loop of `chain_decomposition`, with an
outer fuel bounding the number of extracted chains and an inner fuel `efuel`
passed to each `chain_from_pool` call. -/
def chainDecompAux (r : α → α → Bool) (efuel : Nat) :
    Nat → List α → DecompResult α
  | 0, vertices => if vertices.isEmpty then .ok [] else .fuelOut
  | n + 1, vertices =>
    if vertices.isEmpty then .ok []
    else
      match chain_from_pool r efuel vertices with
      | .ok chain pool =>
        match chainDecompAux r efuel n pool with
        | .ok chains => .ok (chain :: chains)
        | .structuralError => .structuralError
        | .panicked => .panicked
        | .fuelOut => .fuelOut
      | .structuralError => .structuralError
      | .panicked => .panicked
      | .fuelOut => .fuelOut

/-- `Poset::chain_decomposition` from `poset.rs`, run with fuel
`elements.length + 1` for both loops (proved adequate whenever the Rust
loops terminate at all on the input; the loop extracting chains removes at
least one pool element per iteration, and for a transitive relation the
extension loop appends pairwise-distinct elements of the pool). -/
def chain_decomposition (r : α → α → Bool) (elements : List α) :
    DecompResult α :=
  chainDecompAux r (elements.length + 1) (elements.length + 1) elements

/-! ## Antichain enumeration, from `src/antichain_iterator.rs` -/

/-- The fields of `AntichainIterator` (the relation is passed separately to
the functions below; `vectors` is the chain list and never changes, `indices`
holds one `Option` digit per chain, `finished` is the termination flag). -/
structure AIState (α : Type) where
  vectors : List (List α)
  indices : List (Option Nat)
  finished : Bool
deriving DecidableEq

/-- `AntichainIterator::new`: all indices start out `None`, `finished` is
`false`. -/
def newIterator (vectors : List (List α)) : AIState α :=
  ⟨vectors, List.replicate vectors.length none, false⟩

/-- `AntichainIterator::is_incomparable`: no later element of the slice is
comparable (`cp`) with an earlier one. -/
def is_incomparable (r : α → α → Bool) : List α → Bool
  | [] => true
  | x :: rest => rest.all (fun y => !(cp r x y)) && is_incomparable r rest

/-- `AntichainIterator::advance_indices`, written as recursion that first
tries to advance the digits to the right (the Rust loop scans `(0..len).rev()`
and returns as soon as one position advances; positions already scanned and
carried over are reset to `None`).  Returns the Rust `bool` result together
with the mutated indices. -/
def advance_indices : List (List α) → List (Option Nat) → Bool × List (Option Nat)
  | [], _ => (false, [])
  | _ :: _, [] => (false, [])
  | v :: vs, d :: ds =>
    match advance_indices vs ds with
    | (true, ds2) => (true, d :: ds2)
    | (false, ds2) =>
      match d with
      | none =>
        if !v.isEmpty then (true, some 0 :: ds2) else (false, none :: ds2)
      | some idx =>
        if idx + 1 < v.length then (true, some (idx + 1) :: ds2)
        else (false, none :: ds2)

/-- The combination built at the top of `AntichainIterator::next`:
`indices.iter().enumerate().filter_map(|(i, &idx)| idx.and_then(|idx|
self.vectors[i].get(idx)))`. -/
def combination : List (List α) → List (Option Nat) → List α
  | [], _ => []
  | _ :: _, [] => []
  | v :: vs, d :: ds =>
    match d with
    | some idx =>
      match v[idx]? with
      | some x => x :: combination vs ds
      | none => combination vs ds
    | none => combination vs ds

/-- `AntichainIterator::next`, with fuel bounding the `while !self.finished`
loop (one unit per visited state; the loop visits each counter state at most
once before either emitting or finishing, so `statesCount` fuel suffices). -/
def nextFuel (r : α → α → Bool) : Nat → AIState α → Option (List α) × AIState α
  | 0, s => (none, s)
  | n + 1, s =>
    if s.finished then (none, s)
    else
      let c := combination s.vectors s.indices
      let (b, idx2) := advance_indices s.vectors s.indices
      let s2 : AIState α := ⟨s.vectors, idx2, !b⟩
      if is_incomparable r c then (some c, s2) else nextFuel r n s2

/-- The full emitted sequence of the iterator: repeatedly visit the current
state, advance, and emit the combination when it passes `is_incomparable`
(this is the concatenation of the results of successive `next` calls; one
fuel unit is spent per visited state). -/
def collectFuel (r : α → α → Bool) : Nat → AIState α → List (List α)
  | 0, _ => []
  | n + 1, s =>
    if s.finished then []
    else
      let c := combination s.vectors s.indices
      let (b, idx2) := advance_indices s.vectors s.indices
      let s2 : AIState α := ⟨s.vectors, idx2, !b⟩
      if is_incomparable r c then c :: collectFuel r n s2 else collectFuel r n s2

/-- The sequence of counter states visited by the iterator, from a given
`(indices, finished)` configuration, with fuel. -/
def visited (vs : List (List α)) : Nat → List (Option Nat) × Bool → List (List (Option Nat))
  | 0, _ => []
  | n + 1, (idx, fin) =>
    if fin then []
    else
      idx ::
        (match advance_indices vs idx with
         | (b, idx2) => visited vs n (idx2, !b))

/-- `∏ i, (L_i + 1)` — the number of counter states of the odometer. -/
def statesCount (vs : List (List α)) : Nat :=
  match vs with
  | [] => 1
  | v :: rest => (v.length + 1) * statesCount rest

/-- The mixed-radix value of an index state: `none` is digit `0`, `some k` is
digit `k + 1`, rightmost digit least significant. -/
def idxVal : List (List α) → List (Option Nat) → Nat
  | [], _ => 0
  | _ :: _, [] => 0
  | _ :: vs, d :: ds =>
    (match d with
     | none => 0
     | some k => k + 1) * statesCount vs + idxVal vs ds

/-- Well-formed index states: same length as the chain list, and every
selected index within the bounds of its chain. -/
def ValidIdx : List (List α) → List (Option Nat) → Prop
  | [], ds => ds = []
  | _ :: _, [] => False
  | v :: vs, d :: ds =>
    (match d with
     | none => True
     | some k => k < v.length) ∧ ValidIdx vs ds

/-- The full antichain enumeration for a chain list, as produced by driving
the iterator to exhaustion. -/
def antichainsList (r : α → α → Bool) (vs : List (List α)) : List (List α) :=
  collectFuel r (statesCount vs) (newIterator vs)

/-- A valid partial order in the sense of the crate documentation:
reflexive, antisymmetric and transitive `ge`. -/
def ValidPO (r : α → α → Bool) : Prop :=
  (∀ a, r a a = true) ∧
  (∀ a b, r a b = true → r b a = true → a = b) ∧
  (∀ a b c, r a b = true → r b c = true → r a c = true)

instance (r : α → α → Bool) [Fintype α] : Decidable (ValidPO r) := by
  unfold ValidPO; infer_instance

/-! ## Concrete relations used as test inputs -/

/-- A dominance cycle on three elements: `ge(0,1)`, `ge(1,2)`, `ge(2,0)` and
nothing else (in particular no element is `ge` itself). -/
def rCyc : Fin 3 → Fin 3 → Bool := fun a b =>
  (a == 0 && b == 1) || (a == 1 && b == 2) || (a == 2 && b == 0)

/-- A relation with a unique minimal element `0` and a covering cycle
`1 → 2 → 3 → 1` above it: `ge(1,0)`, `ge(2,1)`, `ge(3,2)`, `ge(1,3)`. -/
def rBad : Fin 4 → Fin 4 → Bool := fun a b =>
  (a == 1 && b == 0) || (a == 2 && b == 1) || (a == 3 && b == 2) || (a == 1 && b == 3)

/-- Boolean equality on `Fin 2` as a (valid) partial order. -/
def rEqF : Fin 2 → Fin 2 → Bool := fun a b => a == b

/-- The usual linear order on `Fin 3` as a `ge` relation. -/
def rLin : Fin 3 → Fin 3 → Bool := fun a b => b ≤ a

/-- Termination of the Rust `chain_from_pool` call on a given input, in fuel
semantics: some fuel makes the chain-extension loop finish. -/
def ChainFromPoolTerminates (r : α → α → Bool) (pool : List α) : Prop :=
  ∃ n, chain_from_pool r n pool ≠ .fuelOut

/-- Termination of the Rust `chain_decomposition` call on a given input, in
fuel semantics. -/
def ChainDecompTerminates (r : α → α → Bool) (elements : List α) : Prop :=
  ∃ efuel n, chainDecompAux r efuel n elements ≠ .fuelOut

/-! ## Basic lemmas about the relation predicates -/

theorem lt_self_false (r : α → α → Bool) (a : α) : lt r a a = false := by
  simp [lt]

theorem lt_trans_of_ge_trans {r : α → α → Bool}
    (htr : ∀ a b c, r a b = true → r b c = true → r a c = true)
    {a b c : α} (hab : lt r a b = true) (hbc : lt r b c = true) :
    lt r a c = true := by
  simp only [lt, Bool.and_eq_true, Bool.not_eq_true'] at *
  refine ⟨htr c b a hbc.1 hab.1, ?_⟩
  rcases Bool.eq_false_or_eq_true (r a c) with h | h
  · exact absurd (htr a c b h hbc.1) (by simp [hab.2])
  · exact h

theorem lt_ne {r : α → α → Bool} {a b : α} (h : lt r a b = true) : a ≠ b := by
  intro he; subst he; simp [lt] at h

theorem gt_eq_lt_swap (r : α → α → Bool) (a b : α) : gt r a b = lt r b a := by
  simp [gt, lt]

/-! ## C4 — algebraic contract of the derived predicates -/

/-- C4: for every relation `r` and pair `(a,b)`, the derived predicates obey
`le(a,b) = ge(b,a)`, `gt(a,b) = ge(a,b) ∧ ¬ge(b,a)`, `lt(a,b) = ge(b,a) ∧
¬ge(a,b)`, `eq(a,b) = ge(a,b) ∧ ge(b,a)`, `cp(a,b) = ge(a,b) ∨ ge(b,a)`,
`ip(a,b) = ¬cp(a,b)`; exactly one of `lt`, `eq`, `gt`, `ip` holds; and
`pc(a,b)` is `Equal` iff `eq`, `Greater` iff `gt`, `Less` iff `lt`, and no
value iff `ip`. -/
theorem claim_C4_relation_contract (r : α → α → Bool) (a b : α) :
    le r a b = r b a ∧
    gt r a b = (r a b && !(r b a)) ∧
    lt r a b = (r b a && !(r a b)) ∧
    eq r a b = (r a b && r b a) ∧
    cp r a b = (r a b || r b a) ∧
    ip r a b = !(cp r a b) ∧
    [lt r a b, eq r a b, gt r a b, ip r a b].count true = 1 ∧
    (pc r a b = some Ordering.eq ↔ eq r a b = true) ∧
    (pc r a b = some Ordering.gt ↔ gt r a b = true) ∧
    (pc r a b = some Ordering.lt ↔ lt r a b = true) ∧
    (pc r a b = none ↔ ip r a b = true) := by
  cases h1 : r a b <;> cases h2 : r b a <;>
    simp [le, gt, lt, eq, cp, ip, pc, h1, h2, List.count_cons]

/-! ## C1 — `chain_from_pool` panics when the minima vector is empty -/

/-- C1 evaluated at the failing input: on the three-element dominance cycle
`rCyc`, `minima_in_pool` succeeds with an empty vector, so `chain_from_pool`
indexes `elem[0]` out of bounds and panics (it does not return an error
value), and `chain_decomposition` panics with it. -/
theorem claim_C1_panic_eval :
    minima_in_pool rCyc [0, 1, 2] = some [] ∧
    chain_from_pool rCyc 3 [0, 1, 2] = .panicked ∧
    chain_decomposition rCyc [0, 1, 2] = .panicked := by
  decide

/-! ## C6 — `minima_in_pool` always succeeds; the structural error branch is
unreachable -/

/-- C6: `minima_in_pool` always returns a value — the pool elements `v` with
no `w` in the pool with `lt(w,v)`, empty for an empty pool, never a failure
value — and consequently the `"there should be a minimal element"` structural
error branch of `chain_from_pool` (and of `chain_decomposition`) is never
taken, for any relation, pool, or fuel. -/
theorem claim_C6_minima_in_pool_total (r : α → α → Bool) (pool : List α) :
    (∃ l, minima_in_pool r pool = some l ∧
      (∀ v, v ∈ l ↔ v ∈ pool ∧ ∀ w ∈ pool, lt r w v = false) ∧
      (pool = [] → l = [])) ∧
    (∀ fuel, chain_from_pool r fuel pool ≠ .structuralError) ∧
    (∀ efuel n, chainDecompAux r efuel n pool ≠ .structuralError) ∧
    chain_decomposition r pool ≠ .structuralError := by
  have hfp : ∀ (fuel : Nat) (p : List α),
      chain_from_pool r fuel p ≠ .structuralError := by
    intro fuel p h
    unfold chain_from_pool at h
    split at h
    · cases h
    · split at h
      · simp_all [minima_in_pool]
      · split at h
        · cases h
        · split at h
          · cases h
          · cases h
  have hda : ∀ (efuel n : Nat) (p : List α),
      chainDecompAux r efuel n p ≠ .structuralError := by
    intro efuel n
    induction n with
    | zero =>
      intro p h
      unfold chainDecompAux at h
      split at h <;> cases h
    | succ m ih =>
      intro p h
      unfold chainDecompAux at h
      split at h
      · cases h
      · cases hcf : chain_from_pool r efuel p with
        | ok chain pool2 =>
          rw [hcf] at h
          dsimp only at h
          cases hcd : chainDecompAux r efuel m pool2 with
          | ok chains => simp [hcd] at h
          | structuralError => exact ih pool2 hcd
          | panicked => simp [hcd] at h
          | fuelOut => simp [hcd] at h
        | structuralError => exact hfp efuel p hcf
        | panicked => simp [hcf] at h
        | fuelOut => simp [hcf] at h
  refine ⟨⟨pool.filter (fun v => !(pool.any (fun w => lt r w v))), rfl, ?_, ?_⟩,
    fun fuel => hfp fuel pool, fun efuel n => hda efuel n pool, hda _ _ pool⟩
  · intro v
    simp [List.mem_filter, List.any_eq_false]
  · intro h
    subst h
    rfl

/-! ## C5 — `maxima` / `minima` behaviour -/

/-- C5: `maxima()` on an empty poset is `Ok []`; on a non-empty poset an `Ok`
result holds exactly the elements `v` with no `w` such that `gt(w,v)`, and
the result is the error `NoMaxima` exactly when every element has some `w`
strictly above it; `minima()` is symmetric with `lt` and `NoMinima`; and on
the three-element dominance cycle (`gt(0,1)`, `gt(1,2)`, `gt(2,0)`, no
element `ge` itself) `maxima()` fails with `NoMaxima`. -/
theorem claim_C5_maxima_minima (r : α → α → Bool) (elements : List α) :
    (maxima r ([] : List α) = .ok [] ∧ minima r ([] : List α) = .ok []) ∧
    (∀ l, maxima r elements = .ok l →
      ∀ v, v ∈ l ↔ v ∈ elements ∧ ∀ w ∈ elements, gt r w v = false) ∧
    (elements ≠ [] →
      (maxima r elements = .error .NoMaxima ↔
        ∀ v ∈ elements, ∃ w ∈ elements, gt r w v = true)) ∧
    (∀ l, minima r elements = .ok l →
      ∀ v, v ∈ l ↔ v ∈ elements ∧ ∀ w ∈ elements, lt r w v = false) ∧
    (elements ≠ [] →
      (minima r elements = .error .NoMinima ↔
        ∀ v ∈ elements, ∃ w ∈ elements, lt r w v = true)) ∧
    (gt rCyc 0 1 = true ∧ gt rCyc 1 2 = true ∧ gt rCyc 2 0 = true ∧
      (∀ x : Fin 3, rCyc x x = false) ∧
      maxima rCyc [0, 1, 2] = .error .NoMaxima ∧
      minima rCyc [0, 1, 2] = .error .NoMinima) := by
  refine ⟨⟨by simp [maxima], by simp [minima]⟩, ?_, ?_, ?_, ?_,
    by decide, by decide, by decide, by decide, by rfl, by rfl⟩
  · intro l hl v
    simp only [maxima] at hl
    split at hl
    · rename_i he
      rw [List.isEmpty_iff] at he
      subst he
      cases hl
      simp
    · split at hl
      · cases hl
      · cases hl
        simp [List.mem_filter, List.any_eq_false]
  · intro hne
    simp only [maxima]
    rw [if_neg (by simpa [List.isEmpty_iff] using hne)]
    split
    · rename_i hm
      simp only [List.isEmpty_iff, List.filter_eq_nil_iff] at hm
      simp only [true_iff, Except.error.injEq]
      intro v hv
      have h2 := hm v hv
      simp only [Bool.not_eq_true, Bool.not_eq_false'] at h2
      rw [List.any_eq_true] at h2
      obtain ⟨w, hw, hgw⟩ := h2
      exact ⟨w, hw, hgw⟩
    · rename_i hm
      simp only [List.isEmpty_iff, List.filter_eq_nil_iff] at hm
      push_neg at hm
      obtain ⟨v, hv, hpv⟩ := hm
      simp only [Bool.not_eq_true', Bool.not_eq_false, Bool.not_eq_true] at hpv
      rw [List.any_eq_false] at hpv
      constructor
      · intro h
        cases h
      · intro hall
        obtain ⟨w, hw, hgw⟩ := hall v hv
        exact absurd hgw (by simp [hpv w hw])
  · intro l hl v
    simp only [minima] at hl
    split at hl
    · rename_i he
      rw [List.isEmpty_iff] at he
      subst he
      cases hl
      simp
    · split at hl
      · cases hl
      · cases hl
        simp [List.mem_filter, List.any_eq_false]
  · intro hne
    simp only [minima]
    rw [if_neg (by simpa [List.isEmpty_iff] using hne)]
    split
    · rename_i hm
      simp only [List.isEmpty_iff, List.filter_eq_nil_iff] at hm
      simp only [true_iff, Except.error.injEq]
      intro v hv
      have h2 := hm v hv
      simp only [Bool.not_eq_true, Bool.not_eq_false'] at h2
      rw [List.any_eq_true] at h2
      obtain ⟨w, hw, hgw⟩ := h2
      exact ⟨w, hw, hgw⟩
    · rename_i hm
      simp only [List.isEmpty_iff, List.filter_eq_nil_iff] at hm
      push_neg at hm
      obtain ⟨v, hv, hpv⟩ := hm
      simp only [Bool.not_eq_true', Bool.not_eq_false, Bool.not_eq_true] at hpv
      rw [List.any_eq_false] at hpv
      constructor
      · intro h
        cases h
      · intro hall
        obtain ⟨w, hw, hgw⟩ := hall v hv
        exact absurd hgw (by simp [hpv w hw])

/-! ## Machinery for the chain-decomposition claims -/

theorem cover_in_pool_gt {r : α → α → Bool} {x y : α} {pool : List α}
    (h : cover_in_pool r x y pool = true) : gt r y x = true := by
  cases hg : gt r y x with
  | true => rfl
  | false => rw [cover_in_pool, hg] at h; simp at h

theorem contains_eq_true_of_mem {l : List α} {a : α} (h : a ∈ l) :
    l.contains a = true := by
  simpa [List.contains, List.elem_iff] using h

theorem mem_of_contains_eq_true {l : List α} {a : α} (h : l.contains a = true) :
    a ∈ l := by
  simpa [List.contains, List.elem_iff] using h

/-- Any non-empty pool has an element with nothing strictly below it in the
pool, as soon as `ge` is transitive (`lt` is then a strict order: it is
always irreflexive, and transitivity is inherited). -/
theorem exists_pool_min {r : α → α → Bool}
    (htr : ∀ a b c, r a b = true → r b c = true → r a c = true) :
    ∀ (pool : List α), pool ≠ [] → ∃ v ∈ pool, ∀ w ∈ pool, lt r w v = false := by
  intro pool
  induction pool with
  | nil => intro h; exact absurd rfl h
  | cons a l ih =>
    intro _
    by_cases hl : l = []
    · subst hl
      refine ⟨a, by simp, ?_⟩
      intro w hw
      rw [List.mem_singleton] at hw
      subst hw
      exact lt_self_false r _
    · obtain ⟨v, hv, hmin⟩ := ih hl
      by_cases ha : lt r a v = true
      · refine ⟨a, by simp, ?_⟩
        intro w hw
        rcases List.mem_cons.mp hw with h1 | h1
        · subst h1; exact lt_self_false r _
        · rcases Bool.eq_false_or_eq_true (lt r w a) with h2 | h2
          · exact absurd (lt_trans_of_ge_trans htr h2 ha) (by simp [hmin w h1])
          · exact h2
      · refine ⟨v, List.mem_cons_of_mem a hv, ?_⟩
        intro w hw
        rcases List.mem_cons.mp hw with h1 | h1
        · subst h1; simpa using ha
        · exact hmin w h1

theorem minima_filter_ne_nil {r : α → α → Bool}
    (htr : ∀ a b c, r a b = true → r b c = true → r a c = true)
    {pool : List α} (hne : pool ≠ []) :
    pool.filter (fun v => !(pool.any (fun w => lt r w v))) ≠ [] := by
  obtain ⟨v, hv, hmin⟩ := exists_pool_min htr pool hne
  intro hcontra
  rw [List.filter_eq_nil_iff] at hcontra
  refine hcontra v hv ?_
  simp only [Bool.not_eq_true', List.any_eq_false, Bool.not_eq_true]
  intro w hw
  exact hmin w hw

/-- What a successful run of the chain-extension loop guarantees: the final
chain extends the initial one, is strictly `lt`-increasing (given transitive
`ge`), and stays inside the pool. -/
theorem extendChain_some_spec {r : α → α → Bool} {pool : List α}
    (htr : ∀ a b c, r a b = true → r b c = true → r a c = true) :
    ∀ (n : Nat) (latest : α) (chain c : List α),
      latest ∈ chain →
      (∀ b ∈ chain, lt r b latest = true ∨ b = latest) →
      chain.Pairwise (fun a b => lt r a b = true) →
      (∀ b ∈ chain, b ∈ pool) →
      extendChain r pool n latest chain = some c →
      (∀ b ∈ chain, b ∈ c) ∧ c.Pairwise (fun a b => lt r a b = true) ∧
        ∀ b ∈ c, b ∈ pool := by
  intro n
  induction n with
  | zero =>
    intro latest chain c _ _ _ _ h
    simp [extendChain] at h
  | succ m ih =>
    intro latest chain c hlatest hall hpw hsub h
    rw [extendChain] at h
    cases hf : pool.find? (fun x => cover_in_pool r latest x pool) with
    | none =>
      rw [hf] at h
      simp only [Option.some.injEq] at h
      subst h
      exact ⟨fun b hb => hb, hpw, hsub⟩
    | some x =>
      rw [hf] at h
      have hcov : cover_in_pool r latest x pool = true := by
        have h9 := List.find?_some hf
        simpa using h9
      have hxpool : x ∈ pool := List.mem_of_find?_eq_some hf
      have hlx : lt r latest x = true := by
        have h2 := cover_in_pool_gt hcov
        rwa [gt_eq_lt_swap] at h2
      have hallx : ∀ b ∈ chain, lt r b x = true := by
        intro b hb
        rcases hall b hb with hblt | hbeq
        · exact lt_trans_of_ge_trans htr hblt hlx
        · subst hbeq; exact hlx
      have h1 : x ∈ chain ++ [x] := by simp
      have h2 : ∀ b ∈ chain ++ [x], lt r b x = true ∨ b = x := by
        intro b hb
        rcases List.mem_append.mp hb with hb | hb
        · exact Or.inl (hallx b hb)
        · rw [List.mem_singleton] at hb; exact Or.inr hb
      have h3 : (chain ++ [x]).Pairwise (fun a b => lt r a b = true) := by
        rw [List.pairwise_append]
        refine ⟨hpw, List.pairwise_singleton _ _, ?_⟩
        intro a ha b hb
        rw [List.mem_singleton] at hb
        subst hb
        exact hallx a ha
      have h4 : ∀ b ∈ chain ++ [x], b ∈ pool := by
        intro b hb
        rcases List.mem_append.mp hb with hb | hb
        · exact hsub b hb
        · rw [List.mem_singleton] at hb; subst hb; exact hxpool
      obtain ⟨hs, hp, hss⟩ := ih x (chain ++ [x]) c h1 h2 h3 h4 h
      exact ⟨fun b hb => hs b (List.mem_append.mpr (Or.inl hb)), hp, hss⟩

/-- Fuel adequacy for the chain-extension loop under a transitive `ge`: the
chain holds pairwise-distinct pool elements, so `pool.length` appends are an
upper bound. -/
theorem extendChain_ne_none {r : α → α → Bool} {pool : List α}
    (htr : ∀ a b c, r a b = true → r b c = true → r a c = true) :
    ∀ (n : Nat) (latest : α) (chain : List α),
      latest ∈ chain →
      (∀ b ∈ chain, lt r b latest = true ∨ b = latest) →
      chain.Pairwise (fun a b => lt r a b = true) →
      (∀ b ∈ chain, b ∈ pool) →
      pool.length + 1 - chain.length ≤ n →
      extendChain r pool n latest chain ≠ none := by
  intro n
  induction n with
  | zero =>
    intro latest chain hlatest hall hpw hsub hlen
    have hnd : chain.Nodup := hpw.imp (fun hab => lt_ne hab)
    have hle : chain.length ≤ pool.length :=
      (hnd.subperm (fun b hb => hsub b hb)).length_le
    omega
  | succ m ih =>
    intro latest chain hlatest hall hpw hsub hlen h
    rw [extendChain] at h
    cases hf : pool.find? (fun x => cover_in_pool r latest x pool) with
    | none =>
      rw [hf] at h
      cases h
    | some x =>
      rw [hf] at h
      have hcov : cover_in_pool r latest x pool = true := by
        have h9 := List.find?_some hf
        simpa using h9
      have hxpool : x ∈ pool := List.mem_of_find?_eq_some hf
      have hlx : lt r latest x = true := by
        have h2 := cover_in_pool_gt hcov
        rwa [gt_eq_lt_swap] at h2
      have hallx : ∀ b ∈ chain, lt r b x = true := by
        intro b hb
        rcases hall b hb with hblt | hbeq
        · exact lt_trans_of_ge_trans htr hblt hlx
        · subst hbeq; exact hlx
      have hxnc : x ∉ chain := by
        intro hx
        exact absurd (hallx x hx) (by simp [lt_self_false])
      have h1 : x ∈ chain ++ [x] := by simp
      have h2 : ∀ b ∈ chain ++ [x], lt r b x = true ∨ b = x := by
        intro b hb
        rcases List.mem_append.mp hb with hb | hb
        · exact Or.inl (hallx b hb)
        · rw [List.mem_singleton] at hb; exact Or.inr hb
      have h3 : (chain ++ [x]).Pairwise (fun a b => lt r a b = true) := by
        rw [List.pairwise_append]
        refine ⟨hpw, List.pairwise_singleton _ _, ?_⟩
        intro a ha b hb
        rw [List.mem_singleton] at hb
        subst hb
        exact hallx a ha
      have h4 : ∀ b ∈ chain ++ [x], b ∈ pool := by
        intro b hb
        rcases List.mem_append.mp hb with hb | hb
        · exact hsub b hb
        · rw [List.mem_singleton] at hb; subst hb; exact hxpool
      have h5 : pool.length + 1 - (chain ++ [x]).length ≤ m := by
        rw [List.length_append, List.length_singleton]
        omega
      exact ih x (chain ++ [x]) h1 h2 h3 h4 h5 h

theorem filter_length_lt {p : α → Bool} :
    ∀ {l : List α} {a : α}, a ∈ l → p a = false → (l.filter p).length < l.length := by
  intro l
  induction l with
  | nil => intro a ha; simp at ha
  | cons b t ih =>
    intro a ha hpa
    rcases List.mem_cons.mp ha with h1 | h1
    · subst h1
      simp only [List.filter_cons, hpa]
      simp only [Bool.false_eq_true, if_false, List.length_cons]
      exact Nat.lt_succ_of_le (List.length_filter_le _ _)
    · cases hpb : p b
      · simp only [List.filter_cons, hpb, Bool.false_eq_true, if_false, List.length_cons]
        exact Nat.lt_succ_of_lt (ih h1 hpa)
      · simp only [List.filter_cons, hpb, if_true, List.length_cons]
        exact Nat.succ_lt_succ (ih h1 hpa)

/-- What a fully-fuelled `chain_from_pool` returns on a non-empty pool under
a transitive `ge`: a non-empty strictly increasing chain of pool elements,
and the pool with the chain's values retained out. -/
theorem chain_from_pool_ok {r : α → α → Bool} {pool : List α} {fuel : Nat}
    (htr : ∀ a b c, r a b = true → r b c = true → r a c = true)
    (hne : pool ≠ []) (hfuel : pool.length + 1 ≤ fuel) :
    ∃ chain, chain_from_pool r fuel pool =
        .ok chain (pool.filter (fun x => !(chain.contains x))) ∧
      chain ≠ [] ∧ chain.Pairwise (fun a b => lt r a b = true) ∧
      ∀ b ∈ chain, b ∈ pool := by
  cases hm : pool.filter (fun v => !(pool.any (fun w => lt r w v))) with
  | nil => exact absurd hm (minima_filter_ne_nil htr hne)
  | cons e rest =>
    have he_pool : e ∈ pool := by
      have hmem : e ∈ pool.filter (fun v => !(pool.any (fun w => lt r w v))) := by
        rw [hm]; exact List.mem_cons_self e rest
      exact (List.mem_filter.mp hmem).1
    have hinv1 : e ∈ [e] := List.mem_singleton.mpr rfl
    have hinv2 : ∀ b ∈ [e], lt r b e = true ∨ b = e := by
      intro b hb
      rw [List.mem_singleton] at hb
      exact Or.inr hb
    have hinv3 : ([e] : List α).Pairwise (fun a b => lt r a b = true) :=
      List.pairwise_singleton _ _
    have hinv4 : ∀ b ∈ [e], b ∈ pool := by
      intro b hb
      rw [List.mem_singleton] at hb
      subst hb
      exact he_pool
    have hlen : pool.length + 1 - ([e] : List α).length ≤ fuel := by
      simp only [List.length_singleton]
      omega
    have hnn := extendChain_ne_none htr fuel e [e] hinv1 hinv2 hinv3 hinv4 hlen
    cases hec : extendChain r pool fuel e [e] with
    | none => exact absurd hec hnn
    | some chain =>
      obtain ⟨hs, hp, hss⟩ :=
        extendChain_some_spec htr fuel e [e] chain hinv1 hinv2 hinv3 hinv4 hec
      have key : chain_from_pool r fuel pool =
          .ok chain (pool.filter (fun x => !(chain.contains x))) := by
        unfold chain_from_pool
        rw [if_neg (by simpa [List.isEmpty_iff] using hne)]
        simp only [minima_in_pool]
        rw [hm]
        dsimp only
        rw [hec]
      exact ⟨chain, key, List.ne_nil_of_mem (hs e hinv1), hp, hss⟩

/-- What a fully-fuelled decomposition returns under a transitive `ge`:
success, every chain non-empty, strictly increasing and drawn from the pool,
and (when the pool has no duplicates) the chains concatenate to a
permutation of the pool. -/
theorem chainDecompAux_ok {r : α → α → Bool} (efuel : Nat)
    (htr : ∀ a b c, r a b = true → r b c = true → r a c = true) :
    ∀ (n : Nat) (pool : List α), pool.length < n → pool.length + 1 ≤ efuel →
      ∃ chains, chainDecompAux r efuel n pool = .ok chains ∧
        (∀ c ∈ chains, c ≠ [] ∧ c.Pairwise (fun a b => lt r a b = true) ∧
          ∀ b ∈ c, b ∈ pool) ∧
        (pool.Nodup → (chains.flatten).Perm pool) := by
  intro n
  induction n with
  | zero => intro pool h _; omega
  | succ m ih =>
    intro pool hlen hef
    by_cases hp : pool = []
    · subst hp
      refine ⟨[], by simp [chainDecompAux], by simp, by simp⟩
    · obtain ⟨chain, hkey, hcne, hcpw, hcsub⟩ := chain_from_pool_ok htr hp hef
      have hchain_nd : chain.Nodup := hcpw.imp (fun hab => lt_ne hab)
      have hlt : (pool.filter (fun x => !(chain.contains x))).length < pool.length := by
        obtain ⟨c0, hc0⟩ := List.exists_mem_of_ne_nil chain hcne
        refine filter_length_lt (hcsub c0 hc0) ?_
        simp only [Bool.not_eq_false']
        exact contains_eq_true_of_mem hc0
      obtain ⟨chains2, hkey2, hprops2, hperm2⟩ :=
        ih (pool.filter (fun x => !(chain.contains x))) (by omega) (by omega)
      refine ⟨chain :: chains2, ?_, ?_, ?_⟩
      · rw [chainDecompAux]
        rw [if_neg (by simpa [List.isEmpty_iff] using hp), hkey]
        dsimp only
        rw [hkey2]
      · intro c hc
        rcases List.mem_cons.mp hc with h1 | h1
        · subst h1; exact ⟨hcne, hcpw, hcsub⟩
        · obtain ⟨hne2, hpw2, hsub2⟩ := hprops2 c h1
          exact ⟨hne2, hpw2, fun b hb => List.mem_of_mem_filter (hsub2 b hb)⟩
      · intro hnd
        have hnd2 : (pool.filter (fun x => !(chain.contains x))).Nodup :=
          hnd.filter _
        have hstep : ((chain :: chains2).flatten) =
            chain ++ chains2.flatten := List.flatten_cons
        rw [hstep]
        have hjoin2 := hperm2 hnd2
        have hchain_perm : chain.Perm (pool.filter (fun x => chain.contains x)) := by
          apply List.Subperm.antisymm
          · refine hchain_nd.subperm ?_
            intro b hb
            exact List.mem_filter.mpr ⟨hcsub b hb, contains_eq_true_of_mem hb⟩
          · refine (hnd.filter _).subperm ?_
            intro b hb
            exact mem_of_contains_eq_true (List.mem_filter.mp hb).2
        refine List.Perm.trans (List.Perm.append_left chain hjoin2) ?_
        refine List.Perm.trans ?_ (List.filter_append_perm
          (fun x => chain.contains x) pool)
        exact List.Perm.append_right _ hchain_perm

/-! ## C2 — chain decomposition as a multiset partition -/

/-- C2 as stated is false: with the valid partial order `a == b` on `Fin 2`
and the duplicate element list `[1, 1]`, `chain_decomposition` succeeds with
the single chain `[1]` (the `retain` step removes both value-equal copies of
`1` while the chain holds only one), so the concatenation of the chains is
not a permutation of the element multiset. -/
theorem claim_C2_counterexample :
    ValidPO rEqF ∧ ([(1 : Fin 2), 1] ≠ []) ∧
    chain_decomposition rEqF [1, 1] = .ok [[1]] ∧
    ¬ (([[(1 : Fin 2)]]).flatten.Perm [1, 1]) := by
  decide

/-- C2 amended: for every non-empty poset whose relation is a valid partial
order and whose element list has no duplicates, `chain_decomposition`
succeeds and the concatenation of the returned chains is a permutation of
(the multiset of) the poset's elements. -/
theorem claim_C2_partition (r : α → α → Bool) (elements : List α)
    (hpo : ValidPO r) (hne : elements ≠ []) (hnd : elements.Nodup) :
    ∃ chains, chain_decomposition r elements = .ok chains ∧
      chains.flatten.Perm elements := by
  obtain ⟨-, -, htr⟩ := hpo
  obtain ⟨chains, hkey, -, hperm⟩ :=
    chainDecompAux_ok (elements.length + 1) htr (elements.length + 1) elements
      (by omega) (by omega)
  exact ⟨chains, hkey, hperm hnd⟩

theorem claim_C2_partition_witness :
    ∃ chains, chain_decomposition rLin [0, 1, 2] = .ok chains ∧
      chains.flatten.Perm [0, 1, 2] :=
  claim_C2_partition rLin [0, 1, 2] (by decide) (by decide) (by decide)

/-! ## C3 — termination of the decomposition loops -/

theorem rBad_extendChain_eq_none :
    ∀ (n : Nat) (latest : Fin 4) (chain : List (Fin 4)),
      latest = 1 ∨ latest = 2 ∨ latest = 3 →
      extendChain rBad [0, 1, 2, 3] n latest chain = none := by
  intro n
  induction n with
  | zero => intro latest chain _; rfl
  | succ m ih =>
    intro latest chain h
    rcases h with h | h | h <;> subst h <;> rw [extendChain]
    · rw [show List.find? (fun x => cover_in_pool rBad 1 x [0, 1, 2, 3])
          [0, 1, 2, 3] = some 2 from by decide]
      exact ih 2 _ (Or.inr (Or.inl rfl))
    · rw [show List.find? (fun x => cover_in_pool rBad 2 x [0, 1, 2, 3])
          [0, 1, 2, 3] = some 3 from by decide]
      exact ih 3 _ (Or.inr (Or.inr rfl))
    · rw [show List.find? (fun x => cover_in_pool rBad 3 x [0, 1, 2, 3])
          [0, 1, 2, 3] = some 1 from by decide]
      exact ih 1 _ (Or.inl rfl)

/-- C3 as stated is false: on the relation `rBad` (minimal element `0`
covered by `1`, and a covering cycle `1 → 2 → 3 → 1`) the chain-extension
loop of `chain_from_pool` revisits `1, 2, 3` for ever, so no amount of fuel
completes `chain_from_pool` or `chain_decomposition` on the pool
`[0, 1, 2, 3]`: the Rust loops do not terminate. -/
theorem claim_C3_counterexample :
    ¬ ChainFromPoolTerminates rBad [0, 1, 2, 3] ∧
    ¬ ChainDecompTerminates rBad [0, 1, 2, 3] := by
  have hext : ∀ n, extendChain rBad [0, 1, 2, 3] n 0 [0] = none := by
    intro n
    cases n with
    | zero => rfl
    | succ m =>
      rw [extendChain]
      rw [show List.find? (fun x => cover_in_pool rBad 0 x [0, 1, 2, 3])
          [0, 1, 2, 3] = some 1 from by decide]
      exact rBad_extendChain_eq_none m 1 _ (Or.inl rfl)
  have hfp : ∀ n, chain_from_pool rBad n [0, 1, 2, 3] = .fuelOut := by
    intro n
    unfold chain_from_pool
    rw [if_neg (by decide)]
    simp only [minima_in_pool]
    rw [show ([0, 1, 2, 3] : List (Fin 4)).filter
        (fun v => !(([0, 1, 2, 3] : List (Fin 4)).any (fun w => lt rBad w v)))
        = [0] from by decide]
    dsimp only
    rw [hext n]
  constructor
  · rintro ⟨n, hn⟩
    exact hn (hfp n)
  · rintro ⟨efuel, n, hn⟩
    apply hn
    cases n with
    | zero => rfl
    | succ m =>
      rw [chainDecompAux]
      rw [if_neg (by decide), hfp efuel]

/-- C3 amended: the relation predicates and the poset queries are total
functions of the embedding, and `chain_from_pool` and `chain_decomposition`
terminate (and succeed) on every input whenever the relation is a valid
partial order; for an invalid relation the chain-extension loop can run for
ever (see the counterexample). -/
theorem claim_C3_termination (r : α → α → Bool) (elements pool : List α)
    (hpo : ValidPO r) :
    ChainFromPoolTerminates r pool ∧ ChainDecompTerminates r elements ∧
    ∃ chains, chain_decomposition r elements = .ok chains := by
  obtain ⟨-, -, htr⟩ := hpo
  refine ⟨?_, ?_, ?_⟩
  · by_cases hp : pool = []
    · subst hp
      refine ⟨1, ?_⟩
      simp [chain_from_pool]
    · obtain ⟨chain, hkey, -, -, -⟩ := chain_from_pool_ok htr hp (Nat.le_refl _)
      refine ⟨pool.length + 1, ?_⟩
      rw [hkey]
      simp
  · obtain ⟨chains, hkey, -, -⟩ :=
      chainDecompAux_ok (elements.length + 1) htr (elements.length + 1) elements
        (by omega) (by omega)
    refine ⟨elements.length + 1, elements.length + 1, ?_⟩
    rw [hkey]
    simp
  · obtain ⟨chains, hkey, -, -⟩ :=
      chainDecompAux_ok (elements.length + 1) htr (elements.length + 1) elements
        (by omega) (by omega)
    exact ⟨chains, hkey⟩

theorem claim_C3_termination_witness :
    ChainFromPoolTerminates rLin [0] ∧ ChainDecompTerminates rLin [0, 1, 2] ∧
    ∃ chains, chain_decomposition rLin [0, 1, 2] = .ok chains :=
  claim_C3_termination rLin [0, 1, 2] [0] (by decide)

/-! ## C9 — chains are totally ordered -/

/-- C9: when the relation is a valid partial order, every chain produced by
`chain_decomposition` is strictly increasing under `lt` — for positions
`i < j` inside a chain, `lt(chain[i], chain[j])` holds (stated via
`List.Pairwise`). -/
theorem claim_C9_chains_sorted (r : α → α → Bool) (elements : List α)
    (chains : List (List α)) (hpo : ValidPO r)
    (hok : chain_decomposition r elements = .ok chains) :
    ∀ c ∈ chains, c.Pairwise (fun a b => lt r a b = true) := by
  obtain ⟨-, -, htr⟩ := hpo
  obtain ⟨chains2, hkey, hprops, -⟩ :=
    chainDecompAux_ok (elements.length + 1) htr (elements.length + 1) elements
      (by omega) (by omega)
  unfold chain_decomposition at hok
  rw [hok] at hkey
  cases hkey
  intro c hc
  exact (hprops c hc).2.1

theorem claim_C9_chains_sorted_witness :
    List.Pairwise (fun a b => lt rLin a b = true) [0, 1, 2] :=
  claim_C9_chains_sorted rLin [0, 1, 2] [[0, 1, 2]] (by decide) (by decide)
    [0, 1, 2] (by decide)

/-! ## Machinery for the antichain-iterator claims -/

theorem statesCount_pos (vs : List (List α)) : 1 ≤ statesCount vs := by
  induction vs with
  | nil => exact Nat.le_refl 1
  | cons v rest ih =>
    calc 1 ≤ statesCount rest := ih
      _ ≤ (v.length + 1) * statesCount rest := Nat.le_mul_of_pos_left _ (by omega)

theorem statesCount_eq_prod (vs : List (List α)) :
    statesCount vs = (vs.map (fun v => v.length + 1)).prod := by
  induction vs with
  | nil => rfl
  | cons v rest ih => simp [statesCount, ih]

theorem validIdx_replicate (vs : List (List α)) :
    ValidIdx vs (List.replicate vs.length none) := by
  induction vs with
  | nil => simp [ValidIdx]
  | cons v rest ih =>
    rw [List.length_cons, List.replicate_succ]
    exact ⟨trivial, ih⟩

theorem idxVal_replicate (vs : List (List α)) :
    idxVal vs (List.replicate vs.length none) = 0 := by
  induction vs with
  | nil => rfl
  | cons v rest ih
 =>
    rw [List.length_cons, List.replicate_succ]
    simp [idxVal, ih]

theorem idxVal_lt (vs : List (List α)) :
    ∀ ds, ValidIdx vs ds → idxVal vs ds < statesCount vs := by
  induction vs with
  | nil =>
    intro ds h
    rw [show ds = [] from h]
    exact Nat.lt_of_lt_of_le Nat.zero_lt_one (Nat.le_refl _)
  | cons v rest ih =>
    intro ds h
    cases ds with
    | nil => exact absurd h (by simp [ValidIdx])
    | cons d ds2 =>
      obtain ⟨hd, hds⟩ := h
      have htail := ih ds2 hds
      have hpos := statesCount_pos rest
      cases d with
      | none =>
        calc idxVal (v :: rest) (none :: ds2) = 0 * statesCount rest + idxVal rest ds2 := rfl
          _ < statesCount rest := by omega
          _ ≤ (v.length + 1) * statesCount rest := Nat.le_mul_of_pos_left _ (by omega)
      | some k =>
        have hk : k < v.length := hd
        calc idxVal (v :: rest) (some k :: ds2)
            = (k + 1) * statesCount rest + idxVal rest ds2 := rfl
          _ < (k + 1) * statesCount rest + statesCount rest := by omega
          _ = (k + 2) * statesCount rest := by ring
          _ ≤ (v.length + 1) * statesCount rest :=
              Nat.mul_le_mul_right _ (by omega)

/-- The odometer-increment specification of `advance_indices`: on a valid
state of value one short of the state count it fails and resets everything
to `None` (the wrap-around); on any other valid state it succeeds and moves
to the valid state of the next value. -/
theorem advance_indices_spec (vs : List (List α)) :
    ∀ ds, ValidIdx vs ds →
      if idxVal vs ds + 1 = statesCount vs
      then advance_indices vs ds = (false, List.replicate vs.length none)
      else (advance_indices vs ds).1 = true ∧
        ValidIdx vs (advance_indices vs ds).2 ∧
        idxVal vs (advance_indices vs ds).2 = idxVal vs ds + 1 := by
  induction vs with
  | nil =>
    intro ds h
    rw [show ds = [] from h]
    simp [advance_indices, idxVal, statesCount]
  | cons v rest ih =>
    intro ds h
    cases ds with
    | nil => exact absurd h (by simp [ValidIdx])
    | cons d ds2 =>
      obtain ⟨hd, hds⟩ := h
      have ihds := ih ds2 hds
      have hpos := statesCount_pos rest
      have hvlt := idxVal_lt rest ds2 hds
      have hsm : ∀ k : Nat, (k + 1) * statesCount rest =
          k * statesCount rest + statesCount rest := fun k => Nat.succ_mul _ _
      by_cases hterm : idxVal rest ds2 + 1 = statesCount rest
      · rw [if_pos hterm] at ihds
        cases d with
        | none =>
          cases v with
          | nil =>
            have hres : advance_indices (([] : List α) :: rest) (none :: ds2) =
                (false, none :: List.replicate rest.length none) := by
              simp only [advance_indices]
              rw [ihds]
              simp
            have hcond : idxVal (([] : List α) :: rest) (none :: ds2) + 1 =
                statesCount (([] : List α) :: rest) := by
              show 0 * statesCount rest + idxVal rest ds2 + 1 =
                (List.length ([] : List α) + 1) * statesCount rest
              simp only [List.length_nil]
              omega
            rw [if_pos hcond, hres, List.length_cons, List.replicate_succ]
          | cons a t =>
            have hres : advance_indices ((a :: t) :: rest) (none :: ds2) =
                (true, some 0 :: List.replicate rest.length none) := by
              simp only [advance_indices]
              rw [ihds]
              simp
            have hcond : ¬ (idxVal ((a :: t) :: rest) (none :: ds2) + 1 =
                statesCount ((a :: t) :: rest)) := by
              show ¬ (0 * statesCount rest + idxVal rest ds2 + 1 =
                ((a :: t).length + 1) * statesCount rest)
              simp only [List.length_cons]
              rw [hsm (t.length + 1), hsm t.length]
              have h3 : 0 ≤ t.length * statesCount rest := Nat.zero_le _
              omega
            rw [if_neg hcond, hres]
            refine ⟨rfl, ⟨by simp, validIdx_replicate rest⟩, ?_⟩
            show (0 + 1) * statesCount rest +
              idxVal rest (List.replicate rest.length none) =
              0 * statesCount rest + idxVal rest ds2 + 1
            rw [idxVal_replicate]
            omega
        | some k =>
          have hk : k < v.length := hd
          by_cases hkk : k + 1 < v.length
          · have hres : advance_indices (v :: rest) (some k :: ds2) =
                (true, some (k + 1) :: List.replicate rest.length none) := by
              simp only [advance_indices]
              rw [ihds]
              simp [hkk]
            have hcond : ¬ (idxVal (v :: rest) (some k :: ds2) + 1 =
                statesCount (v :: rest)) := by
              show ¬ ((k + 1) * statesCount rest + idxVal rest ds2 + 1 =
                (v.length + 1) * statesCount rest)
              intro hcc
              rw [hsm k] at hcc
              have h4 : (k + 2) * statesCount rest <
                  (v.length + 1) * statesCount rest :=
                (Nat.mul_lt_mul_right (by omega)).mpr (by omega)
              rw [hsm (k + 1)] at h4
              rw [hsm k] at h4
              omega
            rw [if_neg hcond, hres]
            refine ⟨rfl, ⟨hkk, validIdx_replicate rest⟩, ?_⟩
            show (k + 1 + 1) * statesCount rest +
              idxVal rest (List.replicate rest.length none) =
              (k + 1) * statesCount rest + idxVal rest ds2 + 1
            rw [idxVal_replicate, hsm (k + 1)]
            omega
          · have hk1 : k + 1 = v.length := by omega
            have hres : advance_indices (v :: rest) (some k :: ds2) =
                (false, none :: List.replicate rest.length none) := by
              simp only [advance_indices]
              rw [ihds]
              simp [hkk]
            have hcond : idxVal (v :: rest) (some k :: ds2) + 1 =
                statesCount (v :: rest) := by
              show (k + 1) * statesCount rest + idxVal rest ds2 + 1 =
                (v.length + 1) * statesCount rest
              rw [← hk1, hsm (k + 1), hsm k]
              omega
            rw [if_pos hcond, hres, List.length_cons, List.replicate_succ]
      · rw [if_neg hterm] at ihds
        obtain ⟨htrue, hvalid2, hval2⟩ := ihds
        cases hadv : advance_indices rest ds2 with
        | mk b ds3 =>
          rw [hadv] at htrue hvalid2 hval2
          simp only at htrue hvalid2 hval2
          subst htrue
          have hres : advance_indices (v :: rest) (d :: ds2) =
              (true, d :: ds3) := by
            simp only [advance_indices]
            rw [hadv]
          cases d with
          | none =>
            have hcond : ¬ (idxVal (v :: rest) (none :: ds2) + 1 =
                statesCount (v :: rest)) := by
              show ¬ (0 * statesCount rest + idxVal rest ds2 + 1 =
                (v.length + 1) * statesCount rest)
              rw [hsm v.length]
              have h3 : 0 ≤ v.length * statesCount rest := Nat.zero_le _
              omega
            rw [if_neg hcond, hres]
            refine ⟨rfl, ⟨trivial, hvalid2⟩, ?_⟩
            show 0 * statesCount rest + idxVal rest ds3 =
              0 * statesCount rest + idxVal rest ds2 + 1
            omega
          | some k =>
            have hk : k < v.length := hd
            have hcond : ¬ (idxVal (v :: rest) (some k :: ds2) + 1 =
                statesCount (v :: rest)) := by
              show ¬ ((k + 1) * statesCount rest + idxVal rest ds2 + 1 =
                (v.length + 1) * statesCount rest)
              have h4 : (k + 2) * statesCount rest ≤
                  (v.length + 1) * statesCount rest :=
                Nat.mul_le_mul_right _ (by omega)
              rw [hsm (k + 1)] at h4
              rw [hsm k] at h4
              rw [hsm k]
              omega
            rw [if_neg hcond, hres]
            refine ⟨rfl, ⟨hk, hvalid2⟩, ?_⟩
            show (k + 1) * statesCount rest + idxVal rest ds3 =
              (k + 1) * statesCount rest + idxVal rest ds2 + 1
            omega

theorem visited_finished (vs : List (List α)) :
    ∀ (n : Nat) (idx : List (Option Nat)), visited vs n (idx, true) = [] := by
  intro n idx
  cases n with
  | zero => rfl
  | succ m => rfl

theorem visited_map_val (vs : List (List α)) :
    ∀ (n : Nat) (idx : List (Option Nat)), ValidIdx vs idx →
      statesCount vs - idxVal vs idx ≤ n →
      (visited vs n (idx, false)).map (idxVal vs) =
        List.range' (idxVal vs idx) (statesCount vs - idxVal vs idx) := by
  intro n
  induction n with
  | zero =>
    intro idx hvalid hle
    have := idxVal_lt vs idx hvalid
    omega
  | succ m ih =>
    intro idx hvalid hle
    have hvlt := idxVal_lt vs idx hvalid
    have hspec := advance_indices_spec vs idx hvalid
    by_cases hterm : idxVal vs idx + 1 = statesCount vs
    · rw [if_pos hterm] at hspec
      have hstep : visited vs (m + 1) (idx, false) = [idx] := by
        simp only [visited]
        rw [hspec]
        simp
        simp [visited_finished]
      rw [hstep]
      rw [show statesCount vs - idxVal vs idx = 1 from by omega]
      rfl
    · rw [if_neg hterm] at hspec
      cases hadv : advance_indices vs idx with
      | mk b idx2 =>
        rw [hadv] at hspec
        simp only at hspec
        obtain ⟨hb, hvalid2, hval2⟩ := hspec
        subst hb
        have hstep : visited vs (m + 1) (idx, false) =
            idx :: visited vs m (idx2, false) := by
          simp only [visited]
          rw [hadv]
          simp
        rw [hstep]
        rw [List.map_cons]
        rw [ih idx2 hvalid2 (by omega), hval2]
        rw [show statesCount vs - idxVal vs idx =
          (statesCount vs - (idxVal vs idx + 1)) + 1 from by omega]
        rw [List.range'_succ]

theorem visited_valid_mem (vs : List (List α)) :
    ∀ (n : Nat) (idx : List (Option Nat)), ValidIdx vs idx →
      ∀ s ∈ visited vs n (idx, false), ValidIdx vs s := by
  intro n
  induction n with
  | zero =>
    intro idx hvalid s hs
    simp [visited] at hs
  | succ m ih =>
    intro idx hvalid s hs
    have hspec := advance_indices_spec vs idx hvalid
    by_cases hterm : idxVal vs idx + 1 = statesCount vs
    · rw [if_pos hterm] at hspec
      have hstep : visited vs (m + 1) (idx, false) = [idx] := by
        simp only [visited]
        rw [hspec]
        simp
        simp [visited_finished]
      rw [hstep] at hs
      rw [List.mem_singleton] at hs
      subst hs
      exact hvalid
    · rw [if_neg hterm] at hspec
      cases hadv : advance_indices vs idx with
      | mk b idx2 =>
        rw [hadv] at hspec
        simp only at hspec
        obtain ⟨hb, hvalid2, hval2⟩ := hspec
        subst hb
        have hstep : visited vs (m + 1) (idx, false) =
            idx :: visited vs m (idx2, false) := by
          simp only [visited]
          rw [hadv]
          simp
        rw [hstep] at hs
        rcases List.mem_cons.mp hs with h1 | h1
        · subst h1; exact hvalid
        · exact ih idx2 hvalid2 s h1

theorem collectFuel_eq_filter (r : α → α → Bool) (vs : List (List α)) :
    ∀ (n : Nat) (idx : List (Option Nat)) (fin : Bool),
      collectFuel r n ⟨vs, idx, fin⟩ =
        ((visited vs n (idx, fin)).map (combination vs)).filter
          (is_incomparable r) := by
  intro n
  induction n with
  | zero => intro idx fin; rfl
  | succ m ih =>
    intro idx fin
    cases fin with
    | true => rfl
    | false =>
      cases hadv : advance_indices vs idx with
      | mk b idx2 =>
        have hlhs : collectFuel r (m + 1) ⟨vs, idx, false⟩ =
            if is_incomparable r (combination vs idx) = true
            then combination vs idx :: collectFuel r m ⟨vs, idx2, !b⟩
            else collectFuel r m ⟨vs, idx2, !b⟩ := by
          simp only [collectFuel]
          rw [hadv]
          simp
        have hrhs : visited vs (m + 1) (idx, false) =
            idx :: visited vs m (idx2, !b) := by
          simp only [visited]
          rw [hadv]
          simp
        rw [hlhs, hrhs, List.map_cons, List.filter_cons]
        by_cases hinc : is_incomparable r (combination vs idx) = true
        · rw [if_pos hinc, if_pos hinc, ih idx2 (!b)]
        · rw [if_neg hinc, if_neg hinc, ih idx2 (!b)]

theorem combination_replicate (vs : List (List α)) :
    combination vs (List.replicate vs.length none) = [] := by
  induction vs with
  | nil => rfl
  | cons v rest ih =>
    rw [List.length_cons, List.replicate_succ]
    simpa [combination] using ih

theorem combination_eq_zipWith (vs : List (List α)) :
    ∀ ds, combination vs ds =
      (List.zipWith (fun v d => Option.bind d (fun k => v[k]?)) vs ds).reduceOption := by
  induction vs with
  | nil => intro ds; rfl
  | cons v rest ih =>
    intro ds
    cases ds with
    | nil => rfl
    | cons d ds2 =>
      cases d with
      | none => simpa [combination] using ih ds2
      | some k =>
        cases hk : v[k]? with
        | none => simp [combination, hk, ih ds2]
        | some x => simp [combination, hk, ih ds2]

theorem ip_eq_not_cp (r : α → α → Bool) (a b : α) : ip r a b = !(cp r a b) := by
  cases h1 : r a b <;> cases h2 : r b a <;> simp [ip, cp, h1, h2]

theorem is_incomparable_iff_pairwise (r : α → α → Bool) :
    ∀ l : List α, is_incomparable r l = true ↔
      l.Pairwise (fun a b => ip r a b = true) := by
  intro l
  induction l with
  | nil => simp [is_incomparable]
  | cons x rest ih =>
    simp only [is_incomparable, Bool.and_eq_true, List.all_eq_true,
      List.pairwise_cons, ih]
    constructor
    · rintro ⟨h1, h2⟩
      refine ⟨?_, h2⟩
      intro y hy
      rw [ip_eq_not_cp]
      exact h1 y hy
    · rintro ⟨h1, h2⟩
      refine ⟨?_, h2⟩
      intro y hy
      rw [← ip_eq_not_cp]
      exact h1 y hy

theorem nextFuel_finished (r : α → α → Bool) :
    ∀ (n : Nat) (s : AIState α), s.finished = true → nextFuel r n s = (none, s) := by
  intro n s h
  cases n with
  | zero => rfl
  | succ m => simp [nextFuel, h]

theorem nextFuel_fst_eq_head (r : α → α → Bool) :
    ∀ (n : Nat) (s : AIState α), (nextFuel r n s).1 = (collectFuel r n s).head? := by
  intro n
  induction n with
  | zero => intro s; rfl
  | succ m ih =>
    intro s
    cases hf : s.finished with
    | true =>
      rw [nextFuel_finished r (m + 1) s hf]
      have : collectFuel r (m + 1) s = [] := by
        simp [collectFuel, hf]
      rw [this]
      rfl
    | false =>
      obtain ⟨vs, idx, fin⟩ := s
      simp only at hf
      subst hf
      cases hadv : advance_indices vs idx with
      | mk b idx2 =>
        have hlhs : nextFuel r (m + 1) ⟨vs, idx, false⟩ =
            if is_incomparable r (combination vs idx) = true
            then (some (combination vs idx), ⟨vs, idx2, !b⟩)
            else nextFuel r m ⟨vs, idx2, !b⟩ := by
          simp only [nextFuel]
          rw [hadv]
          simp
        have hrhs : collectFuel r (m + 1) ⟨vs, idx, false⟩ =
            if is_incomparable r (combination vs idx) = true
            then combination vs idx :: collectFuel r m ⟨vs, idx2, !b⟩
            else collectFuel r m ⟨vs, idx2, !b⟩ := by
          simp only [collectFuel]
          rw [hadv]
          simp
        rw [hlhs, hrhs]
        by_cases hinc : is_incomparable r (combination vs idx) = true
        · rw [if_pos hinc, if_pos hinc]
          rfl
        · rw [if_neg hinc, if_neg hinc]
          exact ih _

theorem nextFuel_none_finished (r : α → α → Bool) (vs : List (List α)) :
    ∀ (n : Nat) (idx : List (Option Nat)) (s2 : AIState α), ValidIdx vs idx →
      statesCount vs - idxVal vs idx ≤ n →
      nextFuel r n ⟨vs, idx, false⟩ = (none, s2) → s2.finished = true := by
  intro n
  induction n with
  | zero =>
    intro idx s2 hvalid hle
    have := idxVal_lt vs idx hvalid
    omega
  | succ m ih =>
    intro idx s2 hvalid hle h
    have hvlt := idxVal_lt vs idx hvalid
    have hspec := advance_indices_spec vs idx hvalid
    by_cases hterm : idxVal vs idx + 1 = statesCount vs
    · rw [if_pos hterm] at hspec
      have hstep : nextFuel r (m + 1) ⟨vs, idx, false⟩ =
          if is_incomparable r (combination vs idx) = true
          then (some (combination vs idx),
            ⟨vs, List.replicate vs.length none, true⟩)
          else nextFuel r m ⟨vs, List.replicate vs.length none, true⟩ := by
        simp only [nextFuel]
        rw [hspec]
        simp
      rw [hstep] at h
      by_cases hinc : is_incomparable r (combination vs idx) = true
      · rw [if_pos hinc] at h
        cases h
      · rw [if_neg hinc] at h
        rw [nextFuel_finished r m _ rfl] at h
        cases h
        rfl
    · rw [if_neg hterm] at hspec
      cases hadv : advance_indices vs idx with
      | mk b idx2 =>
        rw [hadv] at hspec
        simp only at hspec
        obtain ⟨hb, hvalid2, hval2⟩ := hspec
        subst hb
        have hstep : nextFuel r (m + 1) ⟨vs, idx, false⟩ =
            if is_incomparable r (combination vs idx) = true
            then (some (combination vs idx), ⟨vs, idx2, false⟩)
            else nextFuel r m ⟨vs, idx2, false⟩ := by
          simp only [nextFuel]
          rw [hadv]
          simp
        rw [hstep] at h
        by_cases hinc : is_incomparable r (combination vs idx) = true
        · rw [if_pos hinc] at h
          cases h
        · rw [if_neg hinc] at h
          exact ih idx2 s2 hvalid2 (by omega) h

/-! ## C7 — size and start of the enumerated state space -/

/-- C7: the antichain enumerator visits exactly `∏ i (L_i + 1)` counter
states (`statesCount`, which equals the product of chain length + 1 over the
chain list), starting with the all-unselected state; the first `next()`
result, and hence the first emitted antichain, is the empty one; and for an
empty chain list the enumeration yields exactly one antichain, the empty
antichain. -/
theorem claim_C7_state_space (r : α → α → Bool) (vs : List (List α)) :
    statesCount vs = (vs.map (fun v => v.length + 1)).prod ∧
    (visited vs (statesCount vs)
      (List.replicate vs.length none, false)).length = statesCount vs ∧
    (visited vs (statesCount vs)
      (List.replicate vs.length none, false)).head? =
      some (List.replicate vs.length none) ∧
    (nextFuel r (statesCount vs) (newIterator vs)).1 = some [] ∧
    (antichainsList r vs).head? = some [] ∧
    antichainsList r ([] : List (List α)) = [[]] ∧
    statesCount ([] : List (List α)) = 1 := by
  have hpos := statesCount_pos vs
  have hmap := visited_map_val vs (statesCount vs)
    (List.replicate vs.length none) (validIdx_replicate vs)
    (by rw [idxVal_replicate]; omega)
  rw [idxVal_replicate, Nat.sub_zero] at hmap
  obtain ⟨m, hm⟩ : ∃ m, statesCount vs = m + 1 :=
    ⟨statesCount vs - 1, by omega⟩
  have hfirst : (nextFuel r (statesCount vs) (newIterator vs)).1 = some [] := by
    rw [hm]
    show (nextFuel r (m + 1)
      ⟨vs, List.replicate vs.length none, false⟩).1 = some []
    have hinc : is_incomparable r
        (combination vs (List.replicate vs.length none)) = true := by
      rw [combination_replicate]
      rfl
    cases hadv : advance_indices vs (List.replicate vs.length none) with
    | mk b idx2 =>
      have hstep : nextFuel r (m + 1)
          ⟨vs, List.replicate vs.length none, false⟩ =
          (some (combination vs (List.replicate vs.length none)),
            ⟨vs, idx2, !b⟩) := by
        simp only [nextFuel]
        rw [hadv]
        simp [hinc]
      rw [hstep, combination_replicate]
  refine ⟨statesCount_eq_prod vs, ?_, ?_, hfirst, ?_, ?_, rfl⟩
  · have hlen := congrArg List.length hmap
    rw [List.length_map, List.length_range'] at hlen
    exact hlen
  · rw [hm]
    show (List.replicate vs.length none :: _).head? = _
    rw [List.head?_cons]
  · have hh := nextFuel_fst_eq_head r (statesCount vs) (newIterator vs)
    rw [hfirst] at hh
    exact hh.symm
  · rfl

/-! ## C8 — what the enumerator emits, in what order -/

/-- C8: driving the iterator to exhaustion emits exactly the combinations of
the visited counter states that pass the pairwise-incomparability test, in
visiting order (failing states are skipped, not emitted); the visited states
are in strict odometer order — their values are `0, 1, …, ∏(L_i+1) − 1`,
each state exactly once, so the wrapped-around all-unselected state is not
revisited; every emitted antichain is pairwise `ip` and picks at most one
element per chain, in chain-index order. -/
theorem claim_C8_emission (r : α → α → Bool) (vs : List (List α)) :
    antichainsList r vs =
      ((visited vs (statesCount vs)
        (List.replicate vs.length none, false)).map (combination vs)).filter
        (is_incomparable r) ∧
    (visited vs (statesCount vs)
      (List.replicate vs.length none, false)).map (idxVal vs) =
      List.range' 0 (statesCount vs) ∧
    (visited vs (statesCount vs)
      (List.replicate vs.length none, false)).count
      (List.replicate vs.length none) = 1 ∧
    (∀ c ∈ antichainsList r vs, is_incomparable r c = true ∧
      c.Pairwise (fun a b => ip r a b = true)) ∧
    (∀ c ∈ antichainsList r vs, ∃ ds, ValidIdx vs ds ∧
      c = (List.zipWith (fun v d => Option.bind d (fun k => v[k]?))
        vs ds).reduceOption) := by
  have hpos := statesCount_pos vs
  have hmap := visited_map_val vs (statesCount vs)
    (List.replicate vs.length none) (validIdx_replicate vs)
    (by rw [idxVal_replicate]; omega)
  rw [idxVal_replicate, Nat.sub_zero] at hmap
  have heq : antichainsList r vs =
      ((visited vs (statesCount vs)
        (List.replicate vs.length none, false)).map (combination vs)).filter
        (is_incomparable r) :=
    collectFuel_eq_filter r vs (statesCount vs)
      (List.replicate vs.length none) false
  obtain ⟨m, hm⟩ : ∃ m, statesCount vs = m + 1 :=
    ⟨statesCount vs - 1, by omega⟩
  refine ⟨heq, hmap, ?_, ?_, ?_⟩
  · obtain ⟨rest, hrest⟩ : ∃ rest, visited vs (statesCount vs)
        (List.replicate vs.length none, false) =
        List.replicate vs.length none :: rest := by
      rw [hm]
      exact ⟨_, rfl⟩
    rw [hrest]
    rw [List.count_cons_self]
    have hnotmem : List.replicate vs.length none ∉ rest := by
      intro hmem
      have h0 : (0 : Nat) ∈ rest.map (idxVal vs) := by
        rw [List.mem_map]
        exact ⟨_, hmem, idxVal_replicate vs⟩
      rw [hrest, List.map_cons, idxVal_replicate] at hmap
      rw [hm] at hmap
      rw [List.range'_succ] at hmap
      have htail := (List.cons.injEq _ _ _ _).mp hmap
      rw [htail.2] at h0
      rw [List.mem_range'] at h0
      omega
    rw [List.count_eq_zero_of_not_mem hnotmem]
  · intro c hc
    rw [heq] at hc
    have hinc := (List.mem_filter.mp hc).2
    exact ⟨hinc, (is_incomparable_iff_pairwise r c).mp hinc⟩
  · intro c hc
    rw [heq] at hc
    have hmem := (List.mem_filter.mp hc).1
    rw [List.mem_map] at hmem
    obtain ⟨ds, hds_mem, hds_eq⟩ := hmem
    have hds_valid := visited_valid_mem vs (statesCount vs)
      (List.replicate vs.length none) (validIdx_replicate vs) ds hds_mem
    exact ⟨ds, hds_valid, hds_eq ▸ (combination_eq_zipWith vs ds).symm ▸ rfl⟩

/-! ## C10 — the iterator is fused -/

/-- C10: once `next()` has returned `None` the `finished` flag is set and
every later `next()` call returns `None` without changing the state: a
finished iterator stays finished (first conjunct), and a genuine `None`
return from an unfinished, well-formed state (reached with enough fuel for
the remaining states) leaves the iterator finished, after which all calls
return `None` (second conjunct). -/
theorem claim_C10_fused (r : α → α → Bool) (vs : List (List α))
    (s : AIState α) (n m : Nat) :
    (s.finished = true → nextFuel r n s = (none, s)) ∧
    (∀ idx s2, ValidIdx vs idx → statesCount vs ≤ m →
      nextFuel r m ⟨vs, idx, false⟩ = (none, s2) →
      s2.finished = true ∧ ∀ k, nextFuel r k s2 = (none, s2)) := by
  constructor
  · intro h
    exact nextFuel_finished r n s h
  · intro idx s2 hvalid hsc h
    have hfin := nextFuel_none_finished r vs m idx s2 hvalid (by omega) h
    exact ⟨hfin, fun k => nextFuel_finished r k s2 hfin⟩

end PosetModel
